import Mathlib

/-!
Verification of the appm project-manager model (`src/appm/model.py`,
`src/appm/default.py`, `src/src/file.py`).

The Python code composes regular-expression strings from a declarative
field tree and matches file names with `re.match`.  Machine regexes are
shallow-embedded here as an abstract syntax tree (`Regex`) covering exactly
the constructs the repository's patterns use (literals, character classes,
bounded/greedy repetition of a class, alternation of literals, grouping,
concatenation).  `Regex.render` produces the concrete pattern text the
Python code would build, and `mtr` is the Python `re` backtracking
semantics on that fragment: it returns the list of `(remaining input,
captured groups)` pairs in Python's preference order (greedy, leftmost
alternative first), so the head of the filtered list is exactly the match
`re.match` reports.
-/

/-- Character classes and class repetitions carry the chars of the class and
a negation flag (`[abc]` vs `[^abc]`); `clsStar true []` is `.*`. -/
inductive Regex : Type where
  | eps : Regex
  | lit : List Char → Regex
  | cls : Bool → List Char → Regex
  | clsRep : Bool → List Char → Nat → Regex
  | clsStar : Bool → List Char → Regex
  | clsPlus : Bool → List Char → Regex
  | altLit : List (List Char) → Regex
  | cat : Regex → Regex → Regex
  | grp : Regex → Regex
deriving Repr, DecidableEq

/-- `c` is accepted by the class: member for a positive class, non-member
for a negated one. -/
def charIn (neg : Bool) (cs : List Char) (c : Char) : Bool :=
  cs.contains c != neg

/-- Length of the maximal prefix of `s` whose chars are accepted by the class. -/
def runLen (neg : Bool) (cs : List Char) : List Char → Nat
  | [] => 0
  | c :: t => if charIn neg cs c then runLen neg cs t + 1 else 0

/-- All ways a regex can match a prefix of `s`, as `(rest, captures)` pairs in
Python's backtracking preference order: greedy repetitions try the longest
consumption first, alternation tries alternatives left to right, and a
capturing group records the consumed text before its inner groups
(Python numbers groups by the position of their opening parenthesis). -/
def mtr : Regex → List Char → List (List Char × List (List Char))
  | .eps, s => [(s, [])]
  | .lit l, s => if l.isPrefixOf s then [(s.drop l.length, [])] else []
  | .cls neg cs, s =>
    match s with
    | [] => []
    | c :: t => if charIn neg cs c then [(t, [])] else []
  | .clsRep neg cs n, s => if n ≤ runLen neg cs s then [(s.drop n, [])] else []
  | .clsStar neg cs, s =>
    let r := runLen neg cs s
    (List.range (r + 1)).map (fun i => (s.drop (r - i), []))
  | .clsPlus neg cs, s =>
    let r := runLen neg cs s
    (List.range r).map (fun i => (s.drop (r - i), []))
  | .altLit ss, s =>
    ss.filterMap (fun l => if l.isPrefixOf s then some (s.drop l.length, ([] : List (List Char))) else none)
  | .cat a b, s =>
    (mtr a s).flatMap (fun p => (mtr b p.1).map (fun q => (q.1, p.2 ++ q.2)))
  | .grp r, s =>
    (mtr r s).map (fun p => (p.1, s.take (s.length - p.1.length) :: p.2))

/-- First complete match (empty remainder), as `re.match` against an
`^...$`-anchored pattern reports it: the captured groups in order. -/
def reMatchAux (r : Regex) (s : List Char) : Option (List (List Char)) :=
  ((mtr r s).find? (fun p => p.1.isEmpty)).map (fun p => p.2)

/-- Number of capturing groups of the pattern (what `re` bases
`match.groups()`'s length on). -/
def numGroups : Regex → Nat
  | .cat a b => numGroups a + numGroups b
  | .grp r => numGroups r + 1
  | _ => 0

/-- Python's `sep.join(parts)`: parts interleaved with exactly one `sep`. -/
def pyJoin (sep : String) : List String → String
  | [] => ""
  | [x] => x
  | x :: y :: xs => x ++ sep ++ pyJoin sep (y :: xs)

/-- The concrete pattern text the Python code builds for this regex.
Literal and class characters are emitted verbatim (the repository's
patterns use no characters needing escaping inside those positions). -/
def Regex.render : Regex → String
  | .eps => ""
  | .lit s => String.mk s
  | .cls neg cs => "[" ++ (if neg then "^" else "") ++ String.mk cs ++ "]"
  | .clsRep neg cs n =>
    "[" ++ (if neg then "^" else "") ++ String.mk cs ++ "]" ++ "\x7b" ++ toString n ++ "\x7d"
  | .clsStar true [] => ".*"
  | .clsStar neg cs => "[" ++ (if neg then "^" else "") ++ String.mk cs ++ "]*"
  | .clsPlus neg cs => "[" ++ (if neg then "^" else "") ++ String.mk cs ++ "]+"
  | .altLit ss => pyJoin "|" (ss.map String.mk)
  | .cat a b => a.render ++ b.render
  | .grp r => "(" ++ r.render ++ ")"

/-- Python `dict` update semantics: an existing key keeps its position and
gets the new value, a new key is appended. -/
def dictUpsert (d : List (String × String)) (k v : String) : List (String × String) :=
  if d.any (fun p => p.1 == k) then
    d.map (fun p => if p.1 == k then (k, v) else p)
  else d ++ [(k, v)]

/-- `dict(pairs)` in Python: pairs inserted left to right with update
semantics, so a duplicated key keeps its first position and last value. -/
def pyDict (l : List (String × String)) : List (String × String) :=
  l.foldl (fun d p => dictUpsert d p.1 p.2) []

/-- Joining regexes the way `sep.join(parts)` joins pattern strings. -/
def joinRegex (sep : List Char) : List Regex → Regex
  | [] => .eps
  | [r] => r
  | r :: r' :: rs => .cat r (.cat (.lit sep) (joinRegex sep (r' :: rs)))

/-!
## The field-declaration tree (`FieldDecl` in `src/appm/model.py`)

`FieldDecl` has `name`, optional `sep`, optional `pattern`, optional
`subfields` and a `required` flag (default `True`).  Leaf regex strings are
embedded as `Regex` values; `none` stands for an absent (or empty, which
Python truthiness treats as absent) pattern.  An absent or empty subfield
list is `FieldList.nil`.  `FieldList` is `List FieldDecl` unrolled into a
mutual inductive so that every function below is structurally recursive
(and therefore evaluates inside the kernel).
-/

mutual
inductive FieldDecl : Type where
  | mk (name : String) (sep : Option String) (pattern : Option Regex)
      (subfields : FieldList) (required : Bool)
inductive FieldList : Type where
  | nil : FieldList
  | cons (head : FieldDecl) (tail : FieldList) : FieldList
end

def FieldDecl.name : FieldDecl → String
  | .mk n _ _ _ _ => n

def FieldDecl.required : FieldDecl → Bool
  | .mk _ _ _ _ r => r

def FieldList.isNil : FieldList → Bool
  | .nil => true
  | .cons _ _ => false

def FieldList.ofList : List FieldDecl → FieldList
  | [] => .nil
  | f :: fs => .cons f (FieldList.ofList fs)

/-- `FieldDecl.from_tuple`: a `(name, pattern)` pair becomes a leaf field
with default separator, no subfields and `required = True`. -/
def FieldDecl.from_tuple (n : String) (p : Regex) : FieldDecl :=
  .mk n none (some p) .nil true

/-- Python truthiness of an optional string (`None` and `""` are falsy). -/
def strTruthy : Option String → Bool
  | none => false
  | some s => !s.isEmpty

mutual
/-- `FieldDecl.validate_pattern_subfields` plus pydantic's recursive
validation of nested models: exactly one of pattern/subfields is (truthily)
present, `sep` is present whenever subfields are, and every subfield is
itself valid.  Note the validator never reads `required`. -/
def FieldDecl.validate_pattern_subfields : FieldDecl → Bool
  | .mk _ sep pat subs _ =>
    (pat.isSome || !subs.isNil) &&
    !(pat.isSome && !subs.isNil) &&
    (subs.isNil || strTruthy sep) &&
    FieldList.allValid subs
def FieldList.allValid : FieldList → Bool
  | .nil => true
  | .cons f fs => FieldDecl.validate_pattern_subfields f && FieldList.allValid fs
end

mutual
/-- `FieldDecl.matched_fields`: the field's own name followed, for each
subfield in order, by the subfield's matched fields prefixed with
`name + "__"`. -/
def FieldDecl.matched_fields : FieldDecl → List String
  | .mk n _ _ subs _ => n :: FieldList.prefixedFields n subs
def FieldList.prefixedFields (n : String) : FieldList → List String
  | .nil => []
  | .cons f fs =>
    (FieldDecl.matched_fields f).map (fun s => n ++ "__" ++ s) ++
      FieldList.prefixedFields n fs
end

mutual
/-- `FieldDecl.processed_pattern` as a regex value: the leaf pattern
verbatim, or the subfield patterns each wrapped in a capturing group and
joined by `sep`. -/
def FieldDecl.processed_pattern : FieldDecl → Regex
  | .mk _ sep pat subs _ =>
    match pat with
    | some p => p
    | none => joinRegex (sep.getD "").toList (FieldList.groupPatterns subs)
def FieldList.groupPatterns : FieldList → List Regex
  | .nil => []
  | .cons f fs => .grp (FieldDecl.processed_pattern f) :: FieldList.groupPatterns fs
end

mutual
/-- `FieldDecl.processed_pattern` as the pattern string the Python code
builds: `f"({child})"` pieces joined with `sep`. -/
def FieldDecl.patternText : FieldDecl → String
  | .mk _ sep pat subs _ =>
    match pat with
    | some p => p.render
    | none => pyJoin (sep.getD "") (FieldList.groupTexts subs)
def FieldList.groupTexts : FieldList → List String
  | .nil => []
  | .cons f fs => ("(" ++ FieldDecl.patternText f ++ ")") :: FieldList.groupTexts fs
end

/-- The flattened matched fields of a list of top-level fields, in order
(the loop in `ExtDecl.matched_fields`). -/
def FieldList.flatFields : FieldList → List String
  | .nil => []
  | .cons f fs => f.matched_fields ++ fs.flatFields

mutual
/-- Total number of capturing groups appearing inside the field's *leaf*
regexes (groups the declaration writer put into the pattern strings
themselves, as opposed to the groups the composition wraps around fields). -/
def FieldDecl.leafGroups : FieldDecl → Nat
  | .mk _ _ pat subs _ =>
    match pat with
    | some p => numGroups p
    | none => FieldList.leafGroupsL subs
def FieldList.leafGroupsL : FieldList → Nat
  | .nil => 0
  | .cons f fs => FieldDecl.leafGroups f + FieldList.leafGroupsL fs
end

/-!
## `ExtDecl` (`src/appm/model.py`, extension file-name convention)
-/

structure ExtDecl : Type where
  sep : String := "_"
  format : FieldList

/-- The duplicate-name loop of `ExtDecl.transform_format`: walking the
top-level fields, a name already seen is an error. -/
def namesUniqueAux (seen : List String) : FieldList → Bool
  | .nil => true
  | .cons f fs =>
    if seen.contains f.name then false else namesUniqueAux (f.name :: seen) fs

/-- Construction of an `ExtDecl` succeeds exactly when pydantic's nested
field validation passes and `transform_format`'s loop finds no duplicate
top-level name.  `transform_format` performs no other check: it never reads
`required`, never descends into flattened subfield names, and reserves no
name. -/
def ExtDecl.transform_format_ok (e : ExtDecl) : Bool :=
  FieldList.allValid e.format && namesUniqueAux [] e.format

/-- `ExtDecl.matched_fields`: the flattened fields of every top-level field
in order, then the trailing reserved key `*` for the catch-all group. -/
def ExtDecl.matched_fields (e : ExtDecl) : List String :=
  FieldList.flatFields e.format ++ ["*"]

/-- The composed anchored pattern of `transform_format`
(`"^" + sep.join(f"({p})") + "(.*)$"`) as a regex value; `re.match` anchors
at the start, and the trailing `(.*)$` is the greedy catch-all group. -/
def ExtDecl.patternR (e : ExtDecl) : Regex :=
  .cat (joinRegex e.sep.toList (FieldList.groupPatterns e.format))
    (.grp (.clsStar true []))

/-- The composed pattern as the string `transform_format` stores in
`self._pattern`. -/
def ExtDecl.patternText (e : ExtDecl) : String :=
  "^" ++ pyJoin e.sep (FieldList.groupTexts e.format) ++ "(.*)$"

/-- Total number of capturing groups the declaration writer put inside the
leaf patterns of the extension. -/
def ExtDecl.leafGroups (e : ExtDecl) : Nat :=
  FieldList.leafGroupsL e.format

/-- The three ways `ExtDecl.match` can end: `FileFormatMismatch` (carrying
the name and the pattern), a failure of the defensive
`assert len(groups) == len(self.matched_fields)`, or the zipped result
dictionary. -/
inductive MatchOutcome : Type where
  | formatMismatch (name : String) (pattern : String)
  | assertFail
  | ok (result : List (String × String))
deriving Repr, DecidableEq

/-- `re.match(self._pattern, name)` of `ExtDecl.match`: the captured groups
of the first full match, as strings. -/
def ExtDecl.reMatch (e : ExtDecl) (name : String) : Option (List String) :=
  (reMatchAux e.patternR name.toList).map (fun gs => gs.map String.mk)

/-- `ExtDecl.match`: raise `FileFormatMismatch` when the pattern does not
match, assert the group count equals `len(matched_fields)`, then return
`dict(zip(self.matched_fields, groups))`. -/
def ExtDecl.matchName (e : ExtDecl) (name : String) : MatchOutcome :=
  match e.reMatch name with
  | none => .formatMismatch name e.patternText
  | some groups =>
    if groups.length = e.matched_fields.length then
      .ok (pyDict (e.matched_fields.zip groups))
    else .assertFail

/-!
## Naming convention and project metadata (`src/appm/model.py`)
-/

/-- The fixed vocabulary `STRUCTURES` of `src/appm/model.py` (a Python set;
only membership is ever used, so a list model is exact). -/
def STRUCTURES : List String :=
  ["year", "summary", "internal", "researcherName", "organisationName"]

/-- `NamingConvDecl`: separator and structure, with the source's defaults. -/
structure NamingConvDecl : Type where
  sep : String := "_"
  structure' : List String :=
    ["year", "summary", "internal", "researcherName", "organisationName"]

/-- The loop of `NamingConvDecl.validate_structure_values`: each field bumps
a counter (a count above one is the "repetition" error, checked before the
vocabulary membership check).  `seen` holds the fields already counted. -/
def structureLoop (seen : List String) : List String → Bool
  | [] => true
  | f :: fs =>
    if seen.contains f then false
    else if !(STRUCTURES.contains f) then false
    else structureLoop (f :: seen) fs

/-- `NamingConvDecl.validate_structure_values`: empty structures are
rejected, then the loop rejects repetitions and foreign fields. -/
def NamingConvDecl.validate_structure_values (nc : NamingConvDecl) : Bool :=
  if nc.structure'.isEmpty then false else structureLoop [] nc.structure'

/-- `ProjectMetadataDecl`: year, summary, internal flag and two optional
name fields. -/
structure ProjectMetadataDecl : Type where
  year : Int
  summary : String
  internal : Bool := true
  researcherName : Option String := none
  organisationName : Option String := none

/-- Modelled from the spec: `appm.utils.slugify` is imported by
`src/appm/model.py` but `appm/utils.py` is not among the repository's
staged files.  The spec describes slugification as an external lower-casing,
separator-safe hyphenation collaborator, with the repository's test
expectations "test project" ↦ "test-project", "Hoang Son Le" ↦
"hoang-son-le", "APPN" ↦ "appn".  Modelled as: lower-case everything, then
replace each maximal run of non-alphanumeric characters by a single hyphen,
dropping such runs at either end. -/
def slugify (s : String) : String :=
  String.mk (slugAux false false (s.toList.map Char.toLower))
where
  slugAux (started pending : Bool) : List Char → List Char
    | [] => []
    | c :: t =>
      if c.isAlphanum then
        (if started && pending then ['-', c] else [c]) ++ slugAux true false t
      else slugAux started true t

/-- The body of the loop in `ProjectMetadata.project_name`: the rendered
segment for one structure field, `none` when the metadata value is `None`
(the field is then skipped).  String-valued fields are slugified, `year`
renders as its decimal string, `internal` as `"internal"`/`"external"`.
Fields outside the metadata vocabulary raise `AttributeError` in the source
and are unreachable for a validated structure; they are modelled as
skipped. -/
def segmentOf (meta : ProjectMetadataDecl) (field : String) : Option String :=
  if field = "year" then some (toString meta.year)
  else if field = "summary" then some (slugify meta.summary)
  else if field = "internal" then
    some (if meta.internal then "internal" else "external")
  else if field = "researcherName" then meta.researcherName.map slugify
  else if field = "organisationName" then meta.organisationName.map slugify
  else none

/-- `ProjectMetadata.project_name`: the non-skipped rendered segments of the
structure fields, in order, joined with the naming convention's separator. -/
def project_name (nc : NamingConvDecl) (meta : ProjectMetadataDecl) : String :=
  pyJoin nc.sep (nc.structure'.filterMap (segmentOf meta))

/-!
## Template cross-validation (`ProjectTemplateDecl` in `src/appm/model.py`)
-/

/-- `decl.fields` is `set(matched_fields)`; `layout_set.issubset(fields)` is
membership of every layout field in `matched_fields`. -/
def layoutSubset (layout : List String) (e : ExtDecl) : Bool :=
  layout.all (fun x => e.matched_fields.contains x)

/-- `ProjectTemplateDecl.validate_format_and_layout`: walk the extension
map in order and reject the first declared extension whose field set does
not contain every layout field.  (pydantic runs this validator after the
nested `ExtDecl` and `NamingConvDecl` models have validated themselves.) -/
def validate_format_and_layout (layout : List String) :
    List (String × ExtDecl) → Bool
  | [] => true
  | (_, e) :: rest =>
    if layoutSubset layout e then validate_format_and_layout layout rest
    else false

/-!
## `FileParser` (`src/src/file.py`)
-/

/-- `ExtensionDeclaration` of `src/src/file.py`: separator, field order and
a field-name → pattern mapping (leaf patterns embedded as `Regex`). -/
structure ExtensionDeclaration : Type where
  sep : String
  order : List String
  fields : List (String × Regex)

/-- `decl.fields[item]`: dictionary lookup.  The source raises `KeyError`
for a missing key; every declaration used below has all its `order` keys,
so the default branch is unreachable there. -/
def lookupRegex (l : List (String × Regex)) (k : String) : Regex :=
  ((l.find? (fun p => p.1 == k)).map (fun p => p.2)).getD .eps

/-- `FileParser.build_pattern`:
`"^" + sep.join(f"({fields[item]})" for item in order) + "(.*)$"`. -/
def build_pattern (d : ExtensionDeclaration) : String :=
  "^" ++
    pyJoin d.sep (d.order.map (fun item => "(" ++ (lookupRegex d.fields item).render ++ ")")) ++
    "(.*)$"

/-- The same composed pattern as a regex value, for the match semantics. -/
def buildPatternR (d : ExtensionDeclaration) : Regex :=
  .cat (joinRegex d.sep.toList (d.order.map (fun item => .grp (lookupRegex d.fields item))))
    (.grp (.clsStar true []))

/-- Python's `s.split(sep)` for a one-character separator (no collapsing of
adjacent separators, at least one piece). -/
def splitOnChar (d : Char) : List Char → List (List Char)
  | [] => [[]]
  | c :: t =>
    match splitOnChar d t with
    | [] => [[]]
    | x :: xs => if c == d then [] :: x :: xs else (c :: x) :: xs

/-- Python's `s.lstrip(chars)`: drop leading characters drawn from `chars`. -/
def lstrip (chars : String) (s : String) : String :=
  String.mk (s.toList.dropWhile (fun c => chars.toList.contains c))

/-- The three ways `FileParser.extract_filename` can end: a `ValueError`
for an extension with no pattern, a `ValueError` for a name that does not
match the selected pattern, or the parsed field dictionary. -/
inductive FPOutcome : Type where
  | unknownExt (msg : String)
  | mismatch (msg : String)
  | ok (data : List (String × String))
deriving Repr, DecidableEq

/-- `FileParser.extract_filename`: take the dot-suffix
(`name.split(".")[-1]`), look it up among the declared extensions (the
`patterns` dict has exactly the declaration keys), and on a match zip
`order` with the capture groups and set `data["rest"]` to the last group
with leading separator characters stripped. -/
def extract_filename (decls : List (String × ExtensionDeclaration))
    (name : String) : FPOutcome :=
  let ext := String.mk ((splitOnChar '.' name.toList).getLastD [])
  match decls.find? (fun p => p.1 == ext) with
  | none => .unknownExt ("No mattching pattern for extension: " ++ ext)
  | some (_, decl) =>
    match reMatchAux (buildPatternR decl) name.toList with
    | none => .mismatch ("file: " ++ name ++ " does not match pattern: " ++ build_pattern decl)
    | some groups =>
      let gs := groups.map String.mk
      let data := pyDict (decl.order.zip gs)
      .ok (dictUpsert data "rest" (lstrip decl.sep (gs.getLastD "")))

/-!
## Concrete declarations used by the claims
-/

def digitChars : List Char := ['0', '1', '2', '3', '4', '5', '6', '7', '8', '9']

/-- `[^_.]+`: a separator-free, dot-free field value. -/
def valuePat : Regex := .clsPlus true ['_', '.']

/-- The `procLevel` pattern of `src/appm/default.py`:
`T0-raw|T1-proc|T2-trait|raw|proc|trait`. -/
def procLevelPat : Regex :=
  .altLit ["T0-raw".toList, "T1-proc".toList, "T2-trait".toList,
    "raw".toList, "proc".toList, "trait".toList]

def dateField : FieldDecl := FieldDecl.from_tuple "date" (.clsRep false digitChars 8)

def siteField : FieldDecl := FieldDecl.from_tuple "site" valuePat

def extC1 : ExtDecl := { sep := "_", format := .ofList [dateField, siteField] }

/-- A `procLevel` field declared with `required = False`, as in
`src/appm/default.py`. -/
def procLevelOpt : FieldDecl := .mk "procLevel" none (some procLevelPat) .nil false

def extC2 : ExtDecl := { sep := "_", format := .ofList [siteField, procLevelOpt] }

def runField : FieldDecl := FieldDecl.from_tuple "run" valuePat

def extC3 : ExtDecl := { sep := "_", format := .ofList [runField, procLevelOpt] }

def extC4 : ExtDecl := { sep := "_", format := .ofList [procLevelOpt, siteField] }

def subFieldB : FieldDecl := FieldDecl.from_tuple "b" (.clsRep false digitChars 4)

def groupFieldA : FieldDecl := .mk "a" (some "-") none (.ofList [subFieldB]) true

def leafFieldAB : FieldDecl := FieldDecl.from_tuple "a__b" valuePat

def extC6 : ExtDecl := { sep := "_", format := .ofList [groupFieldA, leafFieldAB] }

def extC6rest : ExtDecl :=
  { sep := "_", format := .ofList [FieldDecl.from_tuple "rest" (.clsRep false digitChars 4)] }

/-- A leaf whose regex text contains a capturing group of its own: `(ab)`. -/
def extC10 : ExtDecl :=
  { sep := "_", format := .ofList [.mk "a" none (some (.grp (.lit "ab".toList))) .nil true] }

def declBin : ExtensionDeclaration :=
  { sep := "_", order := ["date", "site"],
    fields := [("date", .clsRep false digitChars 8), ("site", valuePat)] }

def ncDefault : NamingConvDecl := {}

def metaEmptySummary : ProjectMetadataDecl := { year := 2024, summary := "" }

def metaFull : ProjectMetadataDecl :=
  { year := 2024, summary := "test project", internal := true,
    researcherName := some "Hoang Son Le", organisationName := some "APPN" }

/-!
## Separator-shape predicates (for the rendering claims)
-/

/-- The char list does not start with `c`. -/
def noLeadC (c : Char) : List Char → Bool
  | [] => true
  | a :: _ => a != c

/-- The char list does not end with `c`. -/
def noTrailC (c : Char) : List Char → Bool
  | [] => true
  | [a] => a != c
  | _ :: b :: t => noTrailC c (b :: t)

/-- No two adjacent occurrences of `c` anywhere in the char list. -/
def noDoubleC (c : Char) : List Char → Bool
  | a :: b :: t => !(a == c && b == c) && noDoubleC c (b :: t)
  | _ => true

/-!
## Capture-group counting
-/

/-- Every match result of `mtr r` carries exactly `numGroups r` captures —
the embedding's form of the `re` guarantee that `match.groups()` has one
entry per capturing group of the pattern. -/
theorem mtr_caps_len : ∀ (r : Regex) (s : List Char), ∀ p ∈ mtr r s, p.2.length = numGroups r := by
  intro r
  induction r with
  | eps =>
    intro s p hp
    simp [mtr] at hp
    subst hp; rfl
  | lit l =>
    intro s p hp
    by_cases h : l.isPrefixOf s <;> simp [mtr, h] at hp
    subst hp; rfl
  | cls neg cs =>
    intro s p hp
    cases s with
    | nil => simp [mtr] at hp
    | cons c t =>
      by_cases h : charIn neg cs c <;> simp [mtr, h] at hp
      subst hp; rfl
  | clsRep neg cs n =>
    intro s p hp
    by_cases h : n ≤ runLen neg cs s <;> simp [mtr, h] at hp
    subst hp; rfl
  | clsStar neg cs =>
    intro s p hp
    simp [mtr, List.mem_map] at hp
    obtain ⟨i, _, rfl⟩ := hp
    rfl
  | clsPlus neg cs =>
    intro s p hp
    simp [mtr, List.mem_map] at hp
    obtain ⟨i, _, rfl⟩ := hp
    rfl
  | altLit ss =>
    intro s p hp
    simp only [mtr, List.mem_filterMap] at hp
    obtain ⟨l, _, he⟩ := hp
    split at he
    · cases he; rfl
    · exact absurd he (by simp)
  | cat a b iha ihb =>
    intro s p hp
    simp only [mtr] at hp
    rcases List.mem_flatMap.1 hp with ⟨q, hq, hp2⟩
    rcases List.mem_map.1 hp2 with ⟨w, hw, he⟩
    cases he
    have h1 := iha s q hq
    have h2 := ihb q.1 w hw
    simp [numGroups, List.length_append, h1, h2]
  | grp r ih =>
    intro s p hp
    simp only [mtr] at hp
    rcases List.mem_map.1 hp with ⟨q, hq, he⟩
    cases he
    have h1 := ih s q hq
    simp [numGroups, h1]

/-- Joining regex pieces with a (group-free) literal separator adds up the
pieces' group counts. -/
theorem numGroups_joinRegex (sep : List Char) : ∀ rs : List Regex,
    numGroups (joinRegex sep rs) = (rs.map numGroups).sum
  | [] => by simp [joinRegex, numGroups]
  | [r] => by simp [joinRegex]
  | r :: r' :: rs => by
    have ih := numGroups_joinRegex sep (r' :: rs)
    simp only [joinRegex, numGroups, List.map_cons, List.sum_cons] at *
    omega

/-- Prefixing flattened names with `name + "__"` keeps their number. -/
theorem prefixedFields_length (n : String) : ∀ fs : FieldList,
    (FieldList.prefixedFields n fs).length = (FieldList.flatFields fs).length
  | .nil => rfl
  | .cons f fs => by
    simp [FieldList.prefixedFields, FieldList.flatFields, List.length_append,
      prefixedFields_length n fs]

mutual
/-- For a validated field, the group wrapped around its composed pattern
contributes one capturing group per flattened field name, plus whatever
groups the declaration writer put inside leaf patterns. -/
theorem FieldDecl.groups_count : ∀ f : FieldDecl, f.validate_pattern_subfields = true →
    numGroups (Regex.grp f.processed_pattern) = f.matched_fields.length + f.leafGroups
  | .mk n sep pat subs req, h => by
    cases pat with
    | some p =>
      have hnil : subs = .nil := by
        cases subs with
        | nil => rfl
        | cons a b => simp [FieldDecl.validate_pattern_subfields, FieldList.isNil] at h
      subst hnil
      simp [FieldDecl.processed_pattern, FieldDecl.matched_fields,
        FieldList.prefixedFields, FieldDecl.leafGroups, numGroups]
      omega
    | none =>
      have hall : FieldList.allValid subs = true := by
        simp only [FieldDecl.validate_pattern_subfields, Bool.and_eq_true] at h
        exact h.2
      have ih := FieldList.groups_sum subs hall
      simp [FieldDecl.processed_pattern, numGroups, numGroups_joinRegex, ih,
        FieldDecl.matched_fields, FieldDecl.leafGroups, prefixedFields_length]
      omega
theorem FieldList.groups_sum : ∀ fs : FieldList, FieldList.allValid fs = true →
    ((FieldList.groupPatterns fs).map numGroups).sum =
      (FieldList.flatFields fs).length + FieldList.leafGroupsL fs
  | .nil, _ => rfl
  | .cons f fs, h => by
    have hp : FieldDecl.validate_pattern_subfields f = true ∧ FieldList.allValid fs = true := by
      simpa [FieldList.allValid, Bool.and_eq_true] using h
    have ih := FieldList.groups_sum fs hp.2
    have ihf := FieldDecl.groups_count f hp.1
    simp [FieldList.groupPatterns, FieldList.flatFields, FieldList.leafGroupsL,
      List.length_append, ih, ihf]
    omega
end

/-- For a validated extension the composed pattern's group count is the
number of flattened field names, plus one for the trailing `(.*)`, plus any
groups written inside leaf patterns. -/
theorem ExtDecl.pattern_groups (e : ExtDecl) (h : e.transform_format_ok = true) :
    numGroups e.patternR = e.matched_fields.length + e.leafGroups := by
  have hall : FieldList.allValid e.format = true := by
    simp only [ExtDecl.transform_format_ok, Bool.and_eq_true] at h
    exact h.1
  have hsum := FieldList.groups_sum e.format hall
  simp [ExtDecl.patternR, numGroups, numGroups_joinRegex, hsum,
    ExtDecl.matched_fields, ExtDecl.leafGroups, List.length_append]
  omega

/-- A successful `re.match` in `ExtDecl.match` yields exactly
`numGroups e.patternR` groups. -/
theorem ExtDecl.reMatch_length (e : ExtDecl) (name : String) (gs : List String)
    (h : e.reMatch name = some gs) : gs.length = numGroups e.patternR := by
  unfold ExtDecl.reMatch at h
  cases ha : reMatchAux e.patternR name.toList with
  | none => rw [ha] at h; simp at h
  | some gl =>
    rw [ha] at h
    simp at h
    unfold reMatchAux at ha
    cases hf : (mtr e.patternR name.toList).find? (fun p => p.1.isEmpty) with
    | none => rw [hf] at ha; simp at ha
    | some pair =>
      rw [hf] at ha
      simp at ha
      have hmem := List.mem_of_find?_eq_some hf
      have hlen := mtr_caps_len e.patternR name.toList pair hmem
      simp [← h, ← ha, hlen]

/-- C10: for every validated ExtensionSpec whose leaf regex patterns contain
no capturing groups of their own, the composed anchored pattern has exactly
as many capturing groups as there are flattened field names plus one (the
trailing catch-all), so the defensive group-count assertion inside `match`
never fails (on any name, accepted or not); and if some leaf pattern does
contain a capturing group, `match` on an accepted name ends in the failed
assertion instead of a result or a `FileFormatMismatch`. -/
theorem extdecl_match_group_assertion (e : ExtDecl) (name : String)
    (hv : e.transform_format_ok = true) :
    (e.leafGroups = 0 →
      numGroups e.patternR = e.matched_fields.length ∧
      e.matchName name ≠ MatchOutcome.assertFail) ∧
    (0 < e.leafGroups → (e.reMatch name).isSome = true →
      e.matchName name = MatchOutcome.assertFail) := by
  have hng := ExtDecl.pattern_groups e hv
  constructor
  · intro h0
    refine ⟨by omega, ?_⟩
    cases hm : e.reMatch name with
    | none => simp [ExtDecl.matchName, hm]
    | some gs =>
      have hlen := ExtDecl.reMatch_length e name gs hm
      have : gs.length = e.matched_fields.length := by omega
      simp [ExtDecl.matchName, hm, this]
  · intro hpos hsome
    cases hm : e.reMatch name with
    | none => rw [hm] at hsome; simp at hsome
    | some gs =>
      have hlen := ExtDecl.reMatch_length e name gs hm
      have : ¬ gs.length = e.matched_fields.length := by omega
      simp [ExtDecl.matchName, hm, this]

/-- Witness for the group-count assertion theorem: `extC1` has group-free
leaves and its match never hits the assertion; `extC10` has a leaf with a
capturing group `(ab)` and its match on the accepted name `"ab"` fails the
assertion. -/
theorem extdecl_match_group_assertion_witness :
    (extC1.transform_format_ok = true ∧ extC1.leafGroups = 0 ∧
      extC1.matchName "20200101_adelaide.bin" ≠ MatchOutcome.assertFail) ∧
    (extC10.transform_format_ok = true ∧ 0 < extC10.leafGroups ∧
      (extC10.reMatch "ab").isSome = true ∧
      extC10.matchName "ab" = MatchOutcome.assertFail) :=
  ⟨⟨by decide, by decide,
    ((extdecl_match_group_assertion extC1 "20200101_adelaide.bin" (by decide)).1 (by decide)).2⟩,
   ⟨by decide, by decide, by decide,
    (extdecl_match_group_assertion extC10 "ab" (by decide)).2 (by decide) (by decide)⟩⟩

/-- C5: the template validator accepts exactly when, for every declared
extension, every layout field is among that extension's fields
(`set(matched_fields)`); it rejects otherwise.  (pydantic runs this after
the nested extension models have validated themselves, so it is stated over
already-constructed extensions.) -/
theorem template_layout_subset_iff (layout : List String)
    (file : List (String × ExtDecl)) :
    validate_format_and_layout layout file = true ↔
      ∀ p ∈ file, ∀ x ∈ layout, x ∈ p.2.matched_fields := by
  induction file with
  | nil => simp [validate_format_and_layout]
  | cons p rest ih =>
    obtain ⟨k, e⟩ := p
    have hsub : layoutSubset layout e = true ↔ ∀ x ∈ layout, x ∈ e.matched_fields := by
      simp [layoutSubset, List.all_eq_true]
    by_cases h : layoutSubset layout e = true
    · simp only [validate_format_and_layout, h, if_true]
      rw [ih]
      constructor
      · intro hrest q hq
        rcases List.mem_cons.1 hq with rfl | hq'
        · exact hsub.1 h
        · exact hrest q hq'
      · intro hall q hq
        exact hall q (List.mem_cons_of_mem _ hq)
    · simp only [validate_format_and_layout]
      rw [if_neg h]
      constructor
      · intro hfalse; simp at hfalse
      · intro hall
        exact (h (hsub.2 (hall (k, e) (by simp)))).elim

/-- The loop of `validate_structure_values`: it accepts from a given `seen`
context exactly when the remaining fields are vocabulary members, are
pairwise distinct, and avoid everything already seen. -/
theorem structureLoop_iff : ∀ (l seen : List String),
    structureLoop seen l = true ↔
      ((∀ f ∈ l, f ∈ STRUCTURES) ∧ l.Nodup ∧ ∀ f ∈ l, f ∉ seen) := by
  intro l
  induction l with
  | nil => simp [structureLoop]
  | cons f fs ih =>
    intro seen
    by_cases hseen : seen.contains f
    · have hstep : structureLoop seen (f :: fs) = false := by
        simp only [structureLoop]
        rw [if_pos hseen]
      rw [hstep]
      constructor
      · intro hf; simp at hf
      · intro h
        exact absurd (by simpa using hseen) (h.2.2 f (by simp))
    · by_cases hvoc : STRUCTURES.contains f
      · have hstep : structureLoop seen (f :: fs) = structureLoop (f :: seen) fs := by
          simp only [structureLoop]
          rw [if_neg hseen, if_neg (by simpa using hvoc)]
        rw [hstep, ih (f :: seen)]
        constructor
        · rintro ⟨h1, h2, h3⟩
          refine ⟨?_, ?_, ?_⟩
          · intro g hg
            rcases List.mem_cons.1 hg with rfl | hg'
            · simpa using hvoc
            · exact h1 g hg'
          · refine List.nodup_cons.2 ⟨?_, h2⟩
            intro hf
            exact (by simp : f ∈ f :: seen) |> (h3 f hf)
          · intro g hg
            rcases List.mem_cons.1 hg with rfl | hg'
            · simpa using hseen
            · intro hin
              exact h3 g hg' (by simp [hin])
        · rintro ⟨h1, h2, h3⟩
          refine ⟨?_, ?_, ?_⟩
          · intro g hg; exact h1 g (by simp [hg])
          · exact (List.nodup_cons.1 h2).2
          · intro g hg
            intro hin
            rcases List.mem_cons.1 hin with rfl | hin'
            · exact (List.nodup_cons.1 h2).1 hg
            · exact h3 g (by simp [hg]) hin'
      · have hstep : structureLoop seen (f :: fs) = false := by
          simp only [structureLoop]
          rw [if_neg hseen, if_pos (by simpa using hvoc)]
        rw [hstep]
        constructor
        · intro hf; simp at hf
        · intro h
          exact absurd (h.1 f (by simp)) (by simpa using hvoc)

/-- C7: `NamingConvDecl` construction succeeds exactly when its structure
is non-empty, duplicate-free and drawn from the fixed vocabulary
`STRUCTURES` — that is, when it is a permutation of a non-empty subset of
the vocabulary. -/
theorem naming_structure_iff (nc : NamingConvDecl) :
    nc.validate_structure_values = true ↔
      (nc.structure' ≠ [] ∧ nc.structure'.Nodup ∧
        ∀ f ∈ nc.structure', f ∈ STRUCTURES) := by
  unfold NamingConvDecl.validate_structure_values
  by_cases hemp : nc.structure'.isEmpty
  · rw [if_pos hemp]
    simp [List.isEmpty_iff.1 hemp]
  · rw [if_neg hemp]
    rw [structureLoop_iff nc.structure' []]
    have hne : nc.structure' ≠ [] := by
      intro h; exact hemp (by simp [h])
    simp [hne]
    tauto

/-!
## Separator-shape lemmas
-/

theorem noLeadC_of_not_mem (c : Char) : ∀ l : List Char, c ∉ l → noLeadC c l = true
  | [], _ => rfl
  | a :: t, h => by
    simp only [noLeadC, bne_iff_ne, ne_eq]
    intro he
    exact h (by simp [he])

theorem noTrailC_of_not_mem (c : Char) : ∀ l : List Char, c ∉ l → noTrailC c l = true
  | [], _ => rfl
  | [a], h => by
    simp only [noTrailC, bne_iff_ne, ne_eq]
    intro he
    exact h (by simp [he])
  | a :: b :: t, h => by
    have hb : c ∉ b :: t := fun hm => h (List.mem_cons_of_mem a hm)
    exact noTrailC_of_not_mem c (b :: t) hb

theorem noDoubleC_of_not_mem (c : Char) : ∀ l : List Char, c ∉ l → noDoubleC c l = true
  | [], _ => rfl
  | [_], _ => rfl
  | a :: b :: t, h => by
    have hb : c ∉ b :: t := fun hm => h (List.mem_cons_of_mem a hm)
    have ha : ¬(a = c) := fun he => h (by simp [he])
    have hrec := noDoubleC_of_not_mem c (b :: t) hb
    simp [noDoubleC, hrec, ha]

theorem noTrailC_cons (c a : Char) : ∀ l : List Char, l ≠ [] → noTrailC c (a :: l) = noTrailC c l
  | [], h => absurd rfl h
  | _ :: _, _ => rfl

theorem noTrailC_append_ne (c : Char) : ∀ (xs m : List Char), m ≠ [] →
    noTrailC c (xs ++ m) = noTrailC c m
  | [], _, _ => rfl
  | x :: xs, m, h => by
    rw [List.cons_append,
      noTrailC_cons c x (xs ++ m) (by simp [List.append_eq_nil, h]),
      noTrailC_append_ne c xs m h]

theorem noDoubleC_cons_ne (c a : Char) (h : a ≠ c) : ∀ l : List Char,
    noDoubleC c (a :: l) = noDoubleC c l
  | [] => rfl
  | b :: t => by simp [noDoubleC, h]

theorem noDoubleC_append_sep (c : Char) : ∀ (xs m : List Char), (∀ a ∈ xs, a ≠ c) →
    noLeadC c m = true → noDoubleC c m = true → noDoubleC c (xs ++ c :: m) = true
  | [], m, _, hl, hd => by
    cases m with
    | nil => rfl
    | cons b t =>
      have hb : ¬(b = c) := by simpa [noLeadC, bne_iff_ne] using hl
      simp [noDoubleC, hb, hd]
  | x :: xs, m, hxs, hl, hd => by
    have hx : x ≠ c := hxs x (by simp)
    rw [List.cons_append, noDoubleC_cons_ne c x hx (xs ++ c :: m)]
    exact noDoubleC_append_sep c xs m (fun a ha => hxs a (by simp [ha])) hl hd

theorem noLeadC_append_left (c : Char) : ∀ (xs w : List Char), xs ≠ [] →
    (∀ a ∈ xs, a ≠ c) → noLeadC c (xs ++ w) = true
  | [], _, h, _ => absurd rfl h
  | x :: _, w, _, hxs => by
    have hx : x ≠ c := hxs x (by simp)
    simp [List.cons_append, noLeadC, hx]

theorem toList_ne_nil_of_ne_empty (s : String) (h : s ≠ "") : s.toList ≠ [] := by
  intro hn
  apply h
  cases s
  simp_all [String.toList]

theorem pyJoin_cons_toList (sep y : String) : ∀ t : List String,
    ∃ m : List Char, (pyJoin sep (y :: t)).toList = y.toList ++ m
  | [] => ⟨[], by simp [pyJoin]⟩
  | z :: t => ⟨sep.toList ++ (pyJoin sep (z :: t)).toList, by simp [pyJoin]⟩

/-- A `str.join` over non-empty, separator-free parts with a one-character
separator has no leading, trailing or doubled separator character. -/
theorem pyJoin_sep_shape (c : Char) (sep : String) (hsep : sep.toList = [c]) :
    ∀ segs : List String, (∀ seg ∈ segs, seg ≠ "" ∧ c ∉ seg.toList) →
      noLeadC c (pyJoin sep segs).toList = true ∧
      noTrailC c (pyJoin sep segs).toList = true ∧
      noDoubleC c (pyJoin sep segs).toList = true
  | [], _ => by simp [pyJoin, noLeadC, noTrailC, noDoubleC]
  | [x], h => by
    have hx := h x (by simp)
    simp only [pyJoin]
    exact ⟨noLeadC_of_not_mem c _ hx.2, noTrailC_of_not_mem c _ hx.2,
      noDoubleC_of_not_mem c _ hx.2⟩
  | x :: y :: t, h => by
    have hx := h x (by simp)
    have ih := pyJoin_sep_shape c sep hsep (y :: t)
      (fun seg hs => h seg (List.mem_cons_of_mem x hs))
    obtain ⟨m, hm⟩ := pyJoin_cons_toList sep y t
    have hyne : y ≠ "" := (h y (by simp)).1
    have hy := toList_ne_nil_of_ne_empty y hyne
    have hrne : (pyJoin sep (y :: t)).toList ≠ [] := by
      rw [hm]
      intro hnil
      exact hy (List.append_eq_nil.1 hnil).1
    have hfull : (pyJoin sep (x :: y :: t)).toList =
        x.toList ++ c :: (pyJoin sep (y :: t)).toList := by
      simp [pyJoin, hsep, show sep.data = [c] from hsep]
    rw [hfull]
    refine ⟨?_, ?_, ?_⟩
    · exact noLeadC_append_left c _ _ (toList_ne_nil_of_ne_empty x hx.1)
        (fun a ha he => hx.2 (he ▸ ha))
    · rw [noTrailC_append_ne c x.toList (c :: (pyJoin sep (y :: t)).toList) (by simp),
        noTrailC_cons c c _ hrne]
      exact ih.2.1
    · exact noDoubleC_append_sep c x.toList _ (fun a ha he => hx.2 (he ▸ ha)) ih.1 ih.2.2

/-- C8 (amended): whenever the separator is a single character and every
rendered segment (absent `None` fields already skipped) is non-empty and
free of the separator character, the rendered project name — the segments
joined with exactly one separator each, in structure order — has no leading
separator, no trailing separator and no two adjacent separators.  (Without
the non-emptiness proviso the property fails: an empty summary slugifies to
an empty segment and doubles the separator.) -/
theorem project_name_no_sep_artifacts (c : Char) (nc : NamingConvDecl)
    (meta : ProjectMetadataDecl) (hsep : nc.sep.toList = [c])
    (hseg : ∀ seg ∈ nc.structure'.filterMap (segmentOf meta),
      seg ≠ "" ∧ c ∉ seg.toList) :
    noLeadC c (project_name nc meta).toList = true ∧
    noTrailC c (project_name nc meta).toList = true ∧
    noDoubleC c (project_name nc meta).toList = true := by
  unfold project_name
  exact pyJoin_sep_shape c nc.sep hsep _ hseg

/-- C8 counterexample: with the default naming convention and metadata
`{year := 2024, summary := "", internal := true}` (optional fields `None`),
the rendered name is `"2024__internal"`, which contains two adjacent
separators — refuting the claim as universally stated. -/
theorem project_name_doubled_sep_cex :
    project_name ncDefault metaEmptySummary = "2024__internal" ∧
    noDoubleC '_' (project_name ncDefault metaEmptySummary).toList = false :=
  ⟨by decide, by decide⟩

/-- Witness for the amended C8 theorem at the repository's own test input:
year 2024, summary "test project", internal, researcher "Hoang Son Le",
organisation "APPN", rendering "2024_test-project_internal_hoang-son-le_appn". -/
theorem project_name_no_sep_artifacts_witness :
    ncDefault.sep.toList = ['_'] ∧
    (∀ seg ∈ ncDefault.structure'.filterMap (segmentOf metaFull),
      seg ≠ "" ∧ '_' ∉ seg.toList) ∧
    (noLeadC '_' (project_name ncDefault metaFull).toList = true ∧
     noTrailC '_' (project_name ncDefault metaFull).toList = true ∧
     noDoubleC '_' (project_name ncDefault metaFull).toList = true) :=
  ⟨by decide, by decide,
    project_name_no_sep_artifacts '_' ncDefault metaFull (by decide) (by decide)⟩

/-!
## Evaluations of the code at the divergence-revealing inputs
-/

/-- C1: evaluating `ExtDecl.match` on an accepted name shows the mapping the
code returns: one entry per flattened field path in capture order, with the
trailing capture bound to the reserved key `*` appended by
`matched_fields` — the key `rest` never appears. -/
theorem extdecl_match_star_key_eval :
    extC1.matchName "20200101_adelaide.bin" =
      MatchOutcome.ok [("date", "20200101"), ("site", "adelaide"), ("*", ".bin")] ∧
    extC1.matched_fields = ["date", "site", "*"] ∧
    "rest" ∉ extC1.matched_fields :=
  ⟨by decide, by decide, by decide⟩

/-- C2: `transform_format` emits `"(" + pattern + ")"` joined by the
separator for every top-level component — the `required = False` flag of
`procLevel` is ignored, no `(?:` wrapping is produced, and a name in which
the optional field is absent fails to match because of the dangling
separator. -/
theorem extdecl_optional_not_wrapped_eval :
    procLevelOpt.required = false ∧
    extC2.patternText = "^([^_.]+)_(T0-raw|T1-proc|T2-trait|raw|proc|trait)(.*)$" ∧
    extC2.matchName "adelaide.bin" =
      MatchOutcome.formatMismatch "adelaide.bin" extC2.patternText :=
  ⟨by decide, by decide, by decide⟩

/-- C3: `ExtDecl` has no `defaults` mapping and `match` performs no
substitution: a name carrying the optional `procLevel` value binds it
literally, but a name omitting the optional field raises
`FileFormatMismatch` instead of binding the field to any default. -/
theorem extdecl_no_default_substitution_eval :
    extC3.matchName "run1_proc.bin" =
      MatchOutcome.ok [("run", "run1"), ("procLevel", "proc"), ("*", ".bin")] ∧
    extC3.matchName "run1.bin" =
      MatchOutcome.formatMismatch "run1.bin" extC3.patternText :=
  ⟨by decide, by decide⟩

/-- C4: an `ExtDecl` whose first top-level component has `required = False`
validates successfully — `transform_format` checks only top-level name
uniqueness and never inspects `required`. -/
theorem extdecl_first_optional_accepted_eval :
    procLevelOpt.required = false ∧ extC4.transform_format_ok = true :=
  ⟨by decide, by decide⟩

/-- C6: an `ExtDecl` whose flattened field names collide (`a__b` appears
both as a nested path and as a top-level name) validates successfully, as
does one containing a field named `rest` — only top-level names are checked
for uniqueness and no name is reserved. -/
theorem extdecl_flattened_collision_accepted_eval :
    extC6.transform_format_ok = true ∧
    extC6.matched_fields = ["a", "a__b", "a__b", "*"] ∧
    ¬ extC6.matched_fields.Nodup ∧
    extC6rest.transform_format_ok = true ∧
    "rest" ∈ extC6rest.matched_fields :=
  ⟨by decide, by decide, by decide, by decide, by decide⟩

/-- C9: `FileParser.extract_filename` performs only an exact lookup of the
dot-suffix: with a declaration map holding only the wildcard key `*`, the
name `x.bin` raises the unknown-extension `ValueError` instead of falling
back to the wildcard declaration; an exactly declared suffix parses. -/
theorem fileparser_no_wildcard_fallback_eval :
    extract_filename [("*", declBin)] "x.bin" =
      FPOutcome.unknownExt "No mattching pattern for extension: bin" ∧
    extract_filename [("bin", declBin)] "20200101_adelaide.bin" =
      FPOutcome.ok [("date", "20200101"), ("site", "adelaide"), ("rest", ".bin")] :=
  ⟨by decide, by decide⟩
